import Mathlib

/-!
Verification of the `squarish` library: a shallow embedding of
`src/squarish/squarish.py` and `src/squarish/arbitrary_ratios.py`.

Python integers are embedded as `ℤ` (or `ℕ` where the source guarantees
non-negativity), Python floats as `ℝ` (exact real arithmetic), and Python
exceptions as the `Except String` monad, with the raised exception's message
as the error payload.  The functions are transcribed branch for branch from
the source; selector folds mirror the semantics of Python's `max(c, key=k)`
(which keeps the first element on ties, replacing only on a strictly greater
key) and `sorted` (ascending stable sort).
-/

namespace Squarish

/-- Embedding of `is_square` from squarish.py: `int(math.sqrt(x)) == math.sqrt(x)`,
with the `ValueError` raised by `math.sqrt` on negative input caught and turned
into `False`.  Over exact reals, `⌊√x⌋ = √x` holds exactly when `x` is a
perfect square, i.e. when `Nat.sqrt x * Nat.sqrt x = x`. -/
def is_square (x : ℤ) : Bool :=
  if x < 0 then false
  else Nat.sqrt x.toNat * Nat.sqrt x.toNat == x.toNat

/-- Embedding of the divisor scan in `squarish_factors`:
`for d in range(mid, 0, -1): if x % d == 0: return d`, returning the first
divisor of `x` found scanning from `mid` down to `1` (`none` when the loop
completes without returning). -/
def findDiv (x : ℕ) : ℕ → Option ℕ
  | 0 => none
  | d + 1 => if x % (d + 1) = 0 then some (d + 1) else findDiv x d

/-- Embedding of `squarish_factors` from squarish.py.  If `is_square(x)`, it
returns `(int(math.sqrt(x)), int(math.sqrt(x)))`.  Otherwise it computes
`mid = floor(sqrt(x))` (raising a math domain error for negative `x`) and scans
`d` from `mid` down to `1` for the first divisor, returning `(x/d, d)`; if the
loop completes it raises `ValueError("X must be a positive integer.")`. -/
def squarish_factors (x : ℤ) : Except String (ℤ × ℤ) :=
  if is_square x then
    .ok ((Nat.sqrt x.toNat : ℤ), (Nat.sqrt x.toNat : ℤ))
  else if x < 0 then .error "math domain error"
  else
    match findDiv x.toNat (Nat.sqrt x.toNat) with
    | some d => .ok ((x.toNat / d : ℕ), (d : ℤ))
    | none => .error "X must be a positive integer."

/-- Embedding of `squareness` from squarish.py: `1` for `x = 0` (an explicit
special case in the source, taken before the formula is ever evaluated), a math
domain error from `math.sqrt` for negative `x`, and otherwise
`(sqrt(x)/m + n/sqrt(x))/2` where `(m, n) = squarish_factors(x)`. -/
noncomputable def squareness (x : ℤ) : Except String ℝ :=
  if x = 0 then .ok 1
  else if x < 0 then .error "math domain error"
  else
    match squarish_factors x with
    | .ok (m, n) => .ok ((Real.sqrt (x : ℝ) / (m : ℝ) + (n : ℝ) / Real.sqrt (x : ℝ)) / 2)
    | .error e => .error e

/-- Embedding of `is_prime` from squarish.py:
`min(squarish_factors(x)) == 1`, propagating any exception raised by
`squarish_factors`. -/
def is_prime (x : ℤ) : Except String Bool :=
  match squarish_factors x with
  | .ok (m, n) => .ok (min m n == 1)
  | .error e => .error e

/-- Loop of Python's `max(c, key=k)`: keep the current best `b` (with key value
`bs`), replacing it only when a later element has a strictly greater key, so the
first element achieving the maximal key wins.  A key error propagates. -/
noncomputable def pyMaxGo (key : ℤ → Except String ℝ) (b : ℤ) (bs : ℝ) :
    List ℤ → Except String ℤ
  | [] => .ok b
  | x :: xs =>
    match key x with
    | .error e => .error e
    | .ok s => if bs < s then pyMaxGo key x s xs else pyMaxGo key b bs xs

/-- Python's `max(c, key=k)`: `ValueError` on an empty collection, otherwise
the first element of `c` achieving the maximal key. -/
noncomputable def pyMax (key : ℤ → Except String ℝ) : List ℤ → Except String ℤ
  | [] => .error "max() arg is an empty sequence"
  | x :: xs =>
    match key x with
    | .error e => .error e
    | .ok s => pyMaxGo key x s xs

/-- Embedding of `squarest_of` from squarish.py with its default arguments
(`sort_key=None`, `reverse_on_key=False`): take the first element of the
perfect squares of `c` sorted ascending (Python `sorted(...)[0]`); when that
list is empty (the `IndexError` branch), fall back to
`max(c, key=squareness)`. -/
noncomputable def squarest_of (c : List ℤ) : Except String ℤ :=
  match List.insertionSort (· ≤ ·) (c.filter fun x => is_square x) with
  | s :: _ => .ok s
  | [] => pyMax squareness c

/-- The selection rule of spec section 4.3 as a predicate: `m` is a member of
`c` achieving the maximal squareness score, and is numerically smallest among
the members achieving it (the default tie-break). -/
def IsSmallestArgmax (c : List ℤ) (m : ℤ) : Prop :=
  m ∈ c ∧ ∃ sm : ℝ, squareness m = .ok sm ∧
    (∀ y ∈ c, ∀ sy : ℝ, squareness y = .ok sy → sy ≤ sm) ∧
    (∀ y ∈ c, ∀ sy : ℝ, squareness y = .ok sy → sy = sm → m ≤ y)

/-- Score every candidate with `squareness`, propagating the first error
(helper for the spec-side full fitness scan of section 4.3). -/
noncomputable def keyed : List ℤ → Except String (List (ℤ × ℝ))
  | [] => .ok []
  | x :: xs =>
    match squareness x with
    | .error e => .error e
    | .ok s =>
      match keyed xs with
      | .error e => .error e
      | .ok ps => .ok ((x, s) :: ps)

/-- Reduction pass of the spec-side full fitness scan: keep the candidate with
the greater score, breaking exact score ties in favour of the numerically
smaller candidate. -/
noncomputable def bestGo (b : ℤ) (bs : ℝ) : List (ℤ × ℝ) → ℤ
  | [] => b
  | (x, s) :: ps =>
    if bs < s ∨ (s = bs ∧ x < b) then bestGo x s ps else bestGo b bs ps

/-- The unshortcut full fitness scan of spec section 4.3, written from the
spec's words for the refinement claim about `squarest_of`: score every
candidate with `squareness`, return the candidate of maximal score, ties
broken by returning the numerically smallest; an empty collection is an
invalid-input error. -/
noncomputable def fullScanSmallest (c : List ℤ) : Except String ℤ :=
  match keyed c with
  | .error e => .error e
  | .ok [] => .error "no candidates to select from"
  | .ok ((x, s) :: ps) => .ok (bestGo x s ps)

/-- Embedding of `fittest_of` from arbitrary_ratios.py: the entire body of the
source function is `raise NotImplementedError`; every call fails. -/
def fittest_of (_c : List ℕ) (_r : ℚ × ℚ) : Except String ℕ :=
  .error "NotImplementedError"

/-- Embedding of `fittest_total` from arbitrary_ratios.py: delegates to
`fittest_of(range(m, m+n+1), r)` (the inclusive range `[m, m+n]`). -/
def fittest_total (m n : ℕ) (r : ℚ × ℚ) : Except String ℕ :=
  fittest_of (List.range' m (n + 1)) r

/-- Loop of `factors_of` from arbitrary_ratios.py:
`for d in range(math.floor(sqrt_x)): if x % d == 0: factors.add((d, int(x/d)))`.
The iteration visits `d = 0, 1, ..., floor(sqrt(x)) - 1`; at `d = 0` the
expression `x % d` raises `ZeroDivisionError`.  The accumulated Python set is
modelled as a list of pairs in insertion order. -/
def factorsGo (x : ℕ) : List ℕ → List (ℕ × ℕ) → Except String (List (ℕ × ℕ))
  | [], acc => .ok acc
  | d :: ds, acc =>
    if d = 0 then .error "integer division or modulo by zero"
    else if x % d = 0 then factorsGo x ds (acc ++ [(d, x / d)])
    else factorsGo x ds acc

/-- Embedding of `factors_of` from arbitrary_ratios.py: seed the set with
`(sqrt_x, sqrt_x)` when `x` is a perfect square, then run the divisor loop
over `range(math.floor(sqrt_x))`. -/
def factors_of (x : ℕ) : Except String (List (ℕ × ℕ)) :=
  factorsGo x (List.range (Nat.sqrt x))
    (if Nat.sqrt x * Nat.sqrt x = x then [(Nat.sqrt x, Nat.sqrt x)] else [])

/-- Modelled from the spec: divisor-pair enumeration required by section 4.1
for the general-ratio finder (`fittest_factors` raises `NotImplementedError`
in the source).  Lists every factor pair `(x/d, d)` of `x` with `d ≤ √x`, so
each pair has its larger side first. -/
def divisorPairs (x : ℕ) : List (ℕ × ℕ) :=
  (List.range x).filterMap fun i =>
    if x % (i + 1) = 0 ∧ (i + 1) * (i + 1) ≤ x then some (x / (i + 1), i + 1)
    else none

/-- Distance of a factor pair's realized ratio (larger side over smaller side)
from the normalized target ratio, as in spec section 4.1. -/
def pairDist (p : ℕ × ℕ) (rho : ℚ) : ℚ :=
  |(p.1 : ℚ) / (p.2 : ℚ) - rho|

/-- Modelled from the spec: reduction pass choosing the factor pair whose
ratio is closest to the target, ties broken toward the pair with the smaller
ratio spread (closer to square), per section 4.1's determinism rule. -/
def pickPairGo (rho : ℚ) (best : ℕ × ℕ) : List (ℕ × ℕ) → ℕ × ℕ
  | [] => best
  | p :: ps =>
    if pairDist p rho < pairDist best rho ∨
        (pairDist p rho = pairDist best rho ∧
          (p.1 : ℚ) / (p.2 : ℚ) < (best.1 : ℚ) / (best.2 : ℚ)) then
      pickPairGo rho p ps
    else pickPairGo rho best ps

/-- Modelled from the spec: `fittest_factors(x, r)` of section 4.1 (the source
function raises `NotImplementedError`), scanning all divisor pairs of `x` for
the one whose ratio is closest to the normalized target `rho`. -/
def fittest_factorsModel (x : ℕ) (rho : ℚ) : Option (ℕ × ℕ) :=
  match divisorPairs x with
  | [] => none
  | p :: ps => some (pickPairGo rho p ps)

/-- Modelled from the spec: the general-ratio fitness score of section 4.2
(unimplemented in the source).  A target pair `(p, q)` means the ratio `p:q`
(section 9), normalized to `max/min ≥ 1`; with `s` the realized ratio of the
fittest pair, the score is `min(s, rho)/max(s, rho)`: it is `1` exactly on an
exact ratio match and strictly decreases as the realized ratio departs from
the target in either direction, as section 4.2 requires (it is the square of
the section 4.2 square-root formulation, hence order-equivalent, and keeps the
model computable over `ℚ`).  `x = 0` scores `1` per section 4.2's special
case. -/
def ratio_fitnessModel (x : ℕ) (r : ℚ × ℚ) : ℚ :=
  if x = 0 then 1
  else
    match fittest_factorsModel x (max r.1 r.2 / min r.1 r.2) with
    | some (m, n) =>
      min ((m : ℚ) / (n : ℚ)) (max r.1 r.2 / min r.1 r.2) /
        max ((m : ℚ) / (n : ℚ)) (max r.1 r.2 / min r.1 r.2)
    | none => 0

/-- Modelled from the spec: selection pass of section 4.3 with the default
tie-break, keeping the candidate of maximal fitness and preferring the
numerically smaller candidate on exact ties. -/
def selGo (r : ℚ × ℚ) (best : ℕ) : List ℕ → ℕ
  | [] => best
  | y :: ys =>
    if ratio_fitnessModel best r < ratio_fitnessModel y r ∨
        (ratio_fitnessModel y r = ratio_fitnessModel best r ∧ y < best) then
      selGo r y ys
    else selGo r best ys

/-- Modelled from the spec: `fittest_of(c, r)` of section 4.3 (the source
raises `NotImplementedError`): invalid-input error on a non-positive ratio or
an empty collection, otherwise the candidate of maximal fitness, ties broken
by the numerically smallest. -/
def fittest_ofModel (c : List ℕ) (r : ℚ × ℚ) : Except String ℕ :=
  if r.1 ≤ 0 ∨ r.2 ≤ 0 then .error "InvalidInput: ratio must be positive"
  else
    match c with
    | [] => .error "no candidates to select from"
    | x :: xs => .ok (selGo r x xs)

/-- Modelled from the spec: `fittest_total(m, n, r)` of section 4.3, the
full-scan selector over the inclusive range `[m, m+n]`. -/
def fittest_totalModel (m n : ℕ) (r : ℚ × ℚ) : Except String ℕ :=
  fittest_ofModel (List.range' m (n + 1)) r

/-! ## Structural lemmas about the divisor scan and `squarish_factors` -/

theorem findDiv_spec {x : ℕ} : ∀ {d e : ℕ}, findDiv x d = some e →
    1 ≤ e ∧ e ≤ d ∧ x % e = 0 := by
  intro d
  induction d with
  | zero => intro e h; simp [findDiv] at h
  | succ d ih =>
    intro e h
    simp only [findDiv] at h
    split_ifs at h with hd
    · obtain rfl : d + 1 = e := Option.some.inj h
      exact ⟨Nat.succ_le_succ (Nat.zero_le d), le_rfl, hd⟩
    · obtain ⟨h1, h2, h3⟩ := ih h
      exact ⟨h1, Nat.le_succ_of_le h2, h3⟩

theorem findDiv_exists (x : ℕ) : ∀ {d : ℕ}, 1 ≤ d → ∃ e, findDiv x d = some e := by
  intro d hd
  induction d with
  | zero => omega
  | succ d ih =>
    simp only [findDiv]
    split_ifs with hd0
    · exact ⟨d + 1, rfl⟩
    · rcases Nat.eq_zero_or_pos d with h0 | hpos
      · subst h0; exact absurd (Nat.mod_one x) hd0
      · exact ih hpos

theorem is_square_iff {x : ℤ} (hx : 0 ≤ x) :
    is_square x = true ↔ Nat.sqrt x.toNat * Nat.sqrt x.toNat = x.toNat := by
  simp [is_square, not_lt.mpr hx]

/-- Structure of a successful `squarish_factors` call on a non-negative input:
it always succeeds, the pair multiplies back to `x`, and (for positive `x`)
both factors are positive with the larger one first. -/
theorem squarish_factors_ok {x : ℤ} (hx : 0 ≤ x) :
    ∃ m n : ℤ, squarish_factors x = .ok (m, n) ∧ m * n = x ∧ 0 ≤ n ∧ n ≤ m ∧
      (1 ≤ x → 1 ≤ n) := by
  by_cases hsq : is_square x = true
  · have ht : Nat.sqrt x.toNat * Nat.sqrt x.toNat = x.toNat := (is_square_iff hx).mp hsq
    refine ⟨(Nat.sqrt x.toNat : ℤ), (Nat.sqrt x.toNat : ℤ), ?_, ?_, ?_, le_rfl, ?_⟩
    · simp [squarish_factors, hsq]
    · rw [← Nat.cast_mul, ht, Int.toNat_of_nonneg hx]
    · positivity
    · intro hx1
      by_contra hlt
      have h0 : Nat.sqrt x.toNat = 0 := by omega
      rw [h0] at ht
      omega
  · have hxpos : 1 ≤ x := by
      rcases lt_or_eq_of_le hx with h | h
      · omega
      · exfalso; apply hsq; rw [← h]; rfl
    have ht2 : 1 ≤ x.toNat := by omega
    have hs1 : 1 ≤ Nat.sqrt x.toNat := by
      rw [Nat.le_sqrt]; omega
    obtain ⟨e, he⟩ := findDiv_exists x.toNat hs1
    obtain ⟨he1, he2, he3⟩ := findDiv_spec he
    have hdvd : e ∣ x.toNat := Nat.dvd_of_mod_eq_zero he3
    have hee : e * e ≤ x.toNat := Nat.le_sqrt.mp he2
    have hdiv : x.toNat / e * e = x.toNat := Nat.div_mul_cancel hdvd
    refine ⟨((x.toNat / e : ℕ) : ℤ), (e : ℤ), ?_, ?_, ?_, ?_, ?_⟩
    · simp only [squarish_factors, hsq, Bool.false_eq_true, if_false,
        not_lt.mpr hx, if_neg (not_lt.mpr hx), he]
    · rw [← Nat.cast_mul, hdiv, Int.toNat_of_nonneg hx]
    · positivity
    · have : e ≤ x.toNat / e := (Nat.le_div_iff_mul_le (by omega)).mpr hee
      exact_mod_cast this
    · intro _; exact_mod_cast he1

/-! ## Real-valued bounds on the squareness score -/

theorem score_bounds {a b : ℝ} (hb : 1 ≤ b) (hba : b ≤ a) :
    0 < (Real.sqrt (a * b) / a + b / Real.sqrt (a * b)) / 2 ∧
      (Real.sqrt (a * b) / a + b / Real.sqrt (a * b)) / 2 ≤ 1 := by
  have ha : (0 : ℝ) < a := lt_of_lt_of_le one_pos (le_trans hb hba)
  have hbpos : (0 : ℝ) < b := lt_of_lt_of_le one_pos hb
  have hab : (0 : ℝ) < a * b := mul_pos ha hbpos
  have hs : (0 : ℝ) < Real.sqrt (a * b) := Real.sqrt_pos.mpr hab
  have h1 : Real.sqrt (a * b) ≤ a := by
    calc Real.sqrt (a * b) ≤ Real.sqrt (a * a) :=
          Real.sqrt_le_sqrt (by nlinarith)
    _ = a := Real.sqrt_mul_self ha.le
  have h2 : b ≤ Real.sqrt (a * b) := by
    calc b = Real.sqrt (b * b) := (Real.sqrt_mul_self hbpos.le).symm
    _ ≤ Real.sqrt (a * b) := Real.sqrt_le_sqrt (by nlinarith)
  constructor
  · positivity
  · have t1 : Real.sqrt (a * b) / a ≤ 1 := (div_le_one ha).mpr h1
    have t2 : b / Real.sqrt (a * b) ≤ 1 := (div_le_one hs).mpr h2
    linarith

theorem score_eq_one {a b : ℝ} (hb : 1 ≤ b) (hba : b ≤ a)
    (h : (Real.sqrt (a * b) / a + b / Real.sqrt (a * b)) / 2 = 1) : a = b := by
  have ha : (0 : ℝ) < a := lt_of_lt_of_le one_pos (le_trans hb hba)
  have hbpos : (0 : ℝ) < b := lt_of_lt_of_le one_pos hb
  have hab : (0 : ℝ) < a * b := mul_pos ha hbpos
  have hs : (0 : ℝ) < Real.sqrt (a * b) := Real.sqrt_pos.mpr hab
  have h1 : Real.sqrt (a * b) ≤ a := by
    calc Real.sqrt (a * b) ≤ Real.sqrt (a * a) :=
          Real.sqrt_le_sqrt (by nlinarith)
    _ = a := Real.sqrt_mul_self ha.le
  have h2 : b ≤ Real.sqrt (a * b) := by
    calc b = Real.sqrt (b * b) := (Real.sqrt_mul_self hbpos.le).symm
    _ ≤ Real.sqrt (a * b) := Real.sqrt_le_sqrt (by nlinarith)
  have t1 : Real.sqrt (a * b) / a ≤ 1 := (div_le_one ha).mpr h1
  have t2 : b / Real.sqrt (a * b) ≤ 1 := (div_le_one hs).mpr h2
  have e1 : Real.sqrt (a * b) / a = 1 := by linarith
  have e2 : Real.sqrt (a * b) = a := by
    rw [div_eq_one_iff_eq ha.ne'] at e1; exact e1
  have e3 : a * b = a * a := by
    conv_lhs => rw [← Real.mul_self_sqrt hab.le]
    rw [e2]
  exact (mul_left_cancel₀ ha.ne' e3).symm

/-! ## Lemmas about `squareness` -/

theorem squareness_eq {x : ℤ} (hx : 1 ≤ x) {m n : ℤ}
    (h : squarish_factors x = .ok (m, n)) :
    squareness x =
      .ok ((Real.sqrt (x : ℝ) / (m : ℝ) + (n : ℝ) / Real.sqrt (x : ℝ)) / 2) := by
  simp only [squareness, if_neg (by omega : ¬x = 0), if_neg (by omega : ¬x < 0), h]

theorem squareness_ok {x : ℤ} (hx : 0 ≤ x) :
    ∃ s : ℝ, squareness x = .ok s ∧ 0 < s ∧ s ≤ 1 := by
  rcases eq_or_lt_of_le hx with h0 | hpos
  · exact ⟨1, by simp [squareness, ← h0], one_pos, le_rfl⟩
  · obtain ⟨m, n, hmn, hprod, _, hnm, hpos1⟩ := squarish_factors_ok hx
    have hn1 : 1 ≤ n := hpos1 (by omega)
    refine ⟨_, squareness_eq (by omega) hmn, ?_⟩
    have hcast : (x : ℝ) = (m : ℝ) * (n : ℝ) := by exact_mod_cast hprod.symm
    have hb : (1 : ℝ) ≤ (n : ℝ) := by exact_mod_cast hn1
    have hba : (n : ℝ) ≤ (m : ℝ) := by exact_mod_cast hnm
    rw [hcast]
    exact score_bounds hb hba

theorem squareness_of_square {x : ℤ} (h : is_square x = true) :
    squareness x = .ok 1 := by
  have hx : 0 ≤ x := by
    by_contra hneg
    push_neg at hneg
    simp [is_square, hneg] at h
  rcases eq_or_lt_of_le hx with h0 | hpos
  · simp [squareness, ← h0]
  · have hx1 : 1 ≤ x := by omega
    have ht : Nat.sqrt x.toNat * Nat.sqrt x.toNat = x.toNat := (is_square_iff hx).mp h
    have hfac : squarish_factors x =
        .ok ((Nat.sqrt x.toNat : ℤ), (Nat.sqrt x.toNat : ℤ)) := by
      simp [squarish_factors, h]
    have hk1 : 1 ≤ Nat.sqrt x.toNat := by
      rw [Nat.le_sqrt]; omega
    have hxk : (x : ℝ) = (Nat.sqrt x.toNat : ℝ) * (Nat.sqrt x.toNat : ℝ) := by
      conv_lhs => rw [← Int.toNat_of_nonneg hx]
      push_cast
      exact_mod_cast ht.symm
    have hsq : Real.sqrt (x : ℝ) = (Nat.sqrt x.toNat : ℝ) := by
      rw [hxk, Real.sqrt_mul_self (by positivity)]
    rw [squareness_eq hx1 hfac]
    simp only [Except.ok.injEq]
    push_cast
    rw [hsq, div_self (by positivity : ((Nat.sqrt x.toNat : ℕ) : ℝ) ≠ 0)]
    norm_num

theorem square_of_squareness_one {x : ℤ} (hx : 0 ≤ x) {s : ℝ}
    (hs : squareness x = .ok s) (h1 : s = 1) : is_square x = true := by
  rcases eq_or_lt_of_le hx with h0 | hpos
  · rw [← h0]; rfl
  · obtain ⟨m, n, hmn, hprod, _, hnm, hpos1⟩ := squarish_factors_ok hx
    have hn1 : 1 ≤ n := hpos1 (by omega)
    rw [squareness_eq (by omega) hmn] at hs
    simp only [Except.ok.injEq] at hs
    have hcast : (x : ℝ) = (m : ℝ) * (n : ℝ) := by exact_mod_cast hprod.symm
    have hb : (1 : ℝ) ≤ (n : ℝ) := by exact_mod_cast hn1
    have hba : (n : ℝ) ≤ (m : ℝ) := by exact_mod_cast hnm
    have heq : (m : ℝ) = (n : ℝ) := by
      apply score_eq_one hb hba
      rw [← hcast, hs, h1]
    have hmn' : m = n := by exact_mod_cast heq
    have hm0 : 0 ≤ m := by omega
    have hxmm : x = ((m.toNat * m.toNat : ℕ) : ℤ) := by
      rw [← hprod, hmn']
      push_cast [Int.toNat_of_nonneg (show (0:ℤ) ≤ n by omega)]
      ring
    rw [is_square_iff hx]
    have hxt : x.toNat = m.toNat * m.toNat := by
      generalize hK : m.toNat * m.toNat = K at hxmm ⊢
      omega
    rw [hxt, Nat.sqrt_eq]

theorem squareness_lt_one_of_not_square {x : ℤ} (hx : 0 ≤ x)
    (hns : ¬ is_square x = true) {s : ℝ} (hs : squareness x = .ok s) : s < 1 := by
  obtain ⟨s', h', _, hb2⟩ := squareness_ok hx
  have hss : s = s' := by
    rw [hs] at h'
    exact (Except.ok.inj h')
  rcases lt_or_eq_of_le (hss ▸ hb2) with h | h
  · exact h
  · exact absurd (square_of_squareness_one hx hs h) hns

/-! ## Claims C1, C2, C3 -/

/-- C1: for every perfect square `x = k²`, `squarish_factors` returns the pair
`(√x, √x) = (k, k)` and `squareness` returns exactly `1`. -/
theorem claim_C1 (k : ℕ) :
    squarish_factors ((k : ℤ) ^ 2) = .ok ((k : ℤ), (k : ℤ)) ∧
      squareness ((k : ℤ) ^ 2) = .ok 1 := by
  have h1 : ((k : ℤ) ^ 2) = ((k * k : ℕ) : ℤ) := by push_cast; ring
  have htn : ((k : ℤ) ^ 2).toNat = k * k := by rw [h1, Int.toNat_natCast]
  have hsqrt : Nat.sqrt (((k : ℤ) ^ 2).toNat) = k := by rw [htn, Nat.sqrt_eq]
  have hsq : is_square ((k : ℤ) ^ 2) = true := by
    rw [is_square_iff (by positivity), hsqrt, htn]
  have hfac : squarish_factors ((k : ℤ) ^ 2) = .ok ((k : ℤ), (k : ℤ)) := by
    simp [squarish_factors, hsq, hsqrt]
  refine ⟨hfac, ?_⟩
  rcases Nat.eq_zero_or_pos k with rfl | hk
  · norm_num [squareness]
  · have hkZ : (1 : ℤ) ≤ (k : ℤ) := by exact_mod_cast hk
    have hx1 : 1 ≤ (k : ℤ) ^ 2 := by nlinarith
    rw [squareness_eq hx1 hfac]
    simp only [Except.ok.injEq]
    have hsqrtR : Real.sqrt (((k : ℤ) ^ 2 : ℤ) : ℝ) = (k : ℝ) := by
      push_cast
      exact Real.sqrt_sq (by positivity)
    rw [hsqrtR]
    push_cast
    rw [div_self (by positivity : ((k : ℕ) : ℝ) ≠ 0)]
    norm_num

/-- C2: for every `x ≥ 0`, `squarish_factors x` succeeds with a pair `(a, b)`
satisfying `a * b = x`. -/
theorem claim_C2 (x : ℤ) (hx : 0 ≤ x) :
    ∃ a b : ℤ, squarish_factors x = .ok (a, b) ∧ a * b = x := by
  obtain ⟨m, n, h, hp, _, _, _⟩ := squarish_factors_ok hx
  exact ⟨m, n, h, hp⟩

/-- Witness for C2 at the concrete input `x = 12`. -/
theorem claim_C2_witness :
    0 ≤ (12 : ℤ) ∧ ∃ a b : ℤ, squarish_factors 12 = .ok (a, b) ∧ a * b = 12 :=
  ⟨by norm_num, claim_C2 12 (by norm_num)⟩

/-- C3: for every `x ≥ 0` the squareness score exists and lies in `(0, 1]`,
and for `x = 0` the score is exactly `1` (the explicit special-case branch of
the definition, not the formula). -/
theorem claim_C3 :
    (∀ x : ℤ, 0 ≤ x → ∃ s : ℝ, squareness x = .ok s ∧ 0 < s ∧ s ≤ 1) ∧
      squareness 0 = .ok 1 :=
  ⟨fun _ hx => squareness_ok hx, by simp [squareness]⟩

/-- Witness for C3 at the concrete input `x = 20`. -/
theorem claim_C3_witness :
    0 ≤ (20 : ℤ) ∧ ∃ s : ℝ, squareness 20 = .ok s ∧ 0 < s ∧ s ≤ 1 :=
  ⟨by norm_num, claim_C3.1 20 (by norm_num)⟩

/-! ## Concrete evaluations of `squarish_factors` and `squareness` -/

theorem is_square_natEval (x s : ℕ) (hs : Nat.sqrt x = s) (hns : ¬s * s = x) :
    is_square (x : ℤ) = false := by
  have h := is_square_iff (show (0 : ℤ) ≤ (x : ℤ) by positivity)
  rw [Int.toNat_natCast, hs] at h
  rw [Bool.eq_false_iff]
  intro hT
  exact hns (h.mp hT)

theorem squarish_factors_natEval (x s d a : ℕ) (hs : Nat.sqrt x = s)
    (hns : ¬s * s = x) (hd : findDiv x s = some d) (ha : x / d = a) :
    squarish_factors (x : ℤ) = .ok ((a : ℤ), (d : ℤ)) := by
  have hnsq : is_square (x : ℤ) = false := is_square_natEval x s hs hns
  simp only [squarish_factors, hnsq, Bool.false_eq_true, if_false,
    if_neg (not_lt.mpr (by positivity : (0 : ℤ) ≤ (x : ℤ))),
    Int.toNat_natCast, hs, hd, ha]

theorem isq2 : is_square (2 : ℤ) = false := by
  simpa using is_square_natEval 2 1 (by norm_num) (by norm_num)

theorem isq8 : is_square (8 : ℤ) = false := by
  simpa using is_square_natEval 8 2 (by norm_num) (by norm_num)

theorem isq18 : is_square (18 : ℤ) = false := by
  simpa using is_square_natEval 18 4 (by norm_num) (by norm_num)

theorem sf2 : squarish_factors 2 = .ok (2, 1) := by
  simpa using squarish_factors_natEval 2 1 1 2 (by norm_num) (by norm_num) rfl rfl

theorem sf8 : squarish_factors 8 = .ok (4, 2) := by
  simpa using squarish_factors_natEval 8 2 2 4 (by norm_num) (by norm_num) rfl rfl

theorem sf18 : squarish_factors 18 = .ok (6, 3) := by
  simpa using squarish_factors_natEval 18 4 3 6 (by norm_num) (by norm_num) rfl rfl

theorem sf20 : squarish_factors 20 = .ok (5, 4) := by
  simpa using squarish_factors_natEval 20 4 4 5 (by norm_num) (by norm_num) rfl rfl

theorem sqrt5_sq : Real.sqrt 5 * Real.sqrt 5 = 5 := Real.mul_self_sqrt (by norm_num)

theorem sqrt5_lb : (89 : ℝ) / 40 < Real.sqrt 5 := by
  rw [Real.lt_sqrt (by norm_num)]; norm_num

theorem sqrt5_ub : Real.sqrt 5 < 9 / 4 := by
  rw [Real.sqrt_lt' (by norm_num)]; norm_num

theorem sqrt20_eq : Real.sqrt 20 = 2 * Real.sqrt 5 := by
  rw [show (20 : ℝ) = 2 ^ 2 * 5 by norm_num, Real.sqrt_mul (by positivity),
    Real.sqrt_sq (by norm_num)]

theorem squareness20 : squareness 20 = .ok (2 * Real.sqrt 5 / 5) := by
  rw [squareness_eq (by norm_num : (1 : ℤ) ≤ 20) sf20]
  have hu : (0 : ℝ) < Real.sqrt 5 := Real.sqrt_pos.mpr (by norm_num)
  simp only [Except.ok.injEq]
  push_cast
  rw [sqrt20_eq]
  field_simp
  ring_nf
  nlinarith [sqrt5_sq]

/-! ## Claims C5, C8, C9, C10 -/

/-- C5 counterexample: `squareness 20` is not strictly between `0.9` and `1`
(its value `2√5/5 ≈ 0.894` lies below `0.9`), refuting the claimed bounds at
the concrete input `20`. -/
theorem claim_C5_counterexample :
    ¬∃ s : ℝ, squareness 20 = .ok s ∧ 9 / 10 < s ∧ s < 1 := by
  rintro ⟨s, hs, h1, _⟩
  rw [squareness20] at hs
  have hsv : s = 2 * Real.sqrt 5 / 5 := (Except.ok.inj hs).symm
  have hub : 2 * Real.sqrt 5 / 5 < 9 / 10 := by
    have := sqrt5_ub; linarith
  rw [hsv] at h1; linarith

/-- C5 (amended): `squarish_factors 20 = (5, 4)` and `squareness 20` is
strictly between `0.89` and `0.9` (the original claim said strictly between
`0.9` and `1.0`; the actual value is `2√5/5 ≈ 0.8944`). -/
theorem claim_C5 :
    squarish_factors 20 = .ok (5, 4) ∧
      ∃ s : ℝ, squareness 20 = .ok s ∧ 89 / 100 < s ∧ s < 9 / 10 := by
  refine ⟨sf20, 2 * Real.sqrt 5 / 5, squareness20, ?_, ?_⟩
  · have := sqrt5_lb; linarith
  · have := sqrt5_ub; linarith

/-- C8: on an empty candidate collection, `squarest_of` fails with an error
(the `ValueError` that Python's `max` raises on an empty sequence, surfaced
after the perfect-square filter is empty) rather than returning a value. -/
theorem claim_C8 : squarest_of [] = .error "max() arg is an empty sequence" := rfl

/-- C9 counterexample: at `x = 0 < 1` the code does not fail: `is_prime 0`
returns `false` (since `squarish_factors 0 = (0, 0)` and `min 0 0 ≠ 1`),
refuting the claim that every `x < 1` fails with an error. -/
theorem claim_C9_counterexample : is_prime 0 = .ok false := rfl

/-- C9 (amended): for every `x < 0`, `is_prime x` fails with the math-domain
error raised by `math.sqrt` (for `x = 0` it instead returns `false`, per the
counterexample). -/
theorem claim_C9 (x : ℤ) (hx : x < 0) : is_prime x = .error "math domain error" := by
  have h1 : is_square x = false := by simp [is_square, hx]
  have h2 : squarish_factors x = .error "math domain error" := by
    simp [squarish_factors, h1, hx]
  simp [is_prime, h2]

/-- Witness for C9 at the concrete input `x = -1`. -/
theorem claim_C9_witness :
    (-1 : ℤ) < 0 ∧ is_prime (-1) = .error "math domain error" :=
  ⟨by norm_num, claim_C9 (-1) (by norm_num)⟩

/-- C10: for every `x ≥ 1`, `factors_of` fails with a division-by-zero error:
its divisor loop `for d in range(floor(sqrt(x)))` starts at `d = 0`, and the
range is non-empty precisely when `x ≥ 1`, so `x % 0` faults on the first
iteration and the function never returns. -/
theorem claim_C10 (x : ℕ) (hx : 1 ≤ x) :
    factors_of x = .error "integer division or modulo by zero" := by
  have hs1 : 1 ≤ Nat.sqrt x := by rw [Nat.le_sqrt]; omega
  obtain ⟨k, hk⟩ : ∃ k, Nat.sqrt x = k + 1 := ⟨Nat.sqrt x - 1, by omega⟩
  rw [factors_of, hk, List.range_succ_eq_map]
  simp [factorsGo]

/-- Witness for C10 at the concrete input `x = 1`. -/
theorem claim_C10_witness :
    1 ≤ 1 ∧ factors_of 1 = .error "integer division or modulo by zero" :=
  ⟨le_rfl, claim_C10 1 le_rfl⟩

/-! ## Claim C6 -/

/-- C6: the source cannot return `12` for `fittest_total(8, 4, (3,4))`: the
body of `fittest_of` is `raise NotImplementedError`, contradicting the
function's own docstring example (which promises `12`).  The spec-modelled
implementation of sections 4.1 to 4.3 does return `12`: over `[8, 12]` with
target ratio `3:4`, only `12 = 3 × 4` realizes the ratio exactly (fitness
`1`), so the full scan selects it. -/
theorem claim_C6 :
    fittest_total 8 4 (3, 4) = .error "NotImplementedError" ∧
      fittest_totalModel 8 4 (3, 4) = .ok 12 := by
  refine ⟨rfl, ?_⟩
  have hdp8 : divisorPairs 8 = [(8, 1), (4, 2)] := rfl
  have hdp9 : divisorPairs 9 = [(9, 1), (3, 3)] := rfl
  have hdp10 : divisorPairs 10 = [(10, 1), (5, 2)] := rfl
  have hdp11 : divisorPairs 11 = [(11, 1)] := rfl
  have hdp12 : divisorPairs 12 = [(12, 1), (6, 2), (4, 3)] := rfl
  have hf8 : ratio_fitnessModel 8 (3, 4) = 2 / 3 := by
    norm_num [ratio_fitnessModel, fittest_factorsModel, hdp8, pickPairGo, pairDist,
      min_def, max_def, abs_of_nonneg]
  have hf9 : ratio_fitnessModel 9 (3, 4) = 3 / 4 := by
    norm_num [ratio_fitnessModel, fittest_factorsModel, hdp9, pickPairGo, pairDist,
      min_def, max_def, abs_of_nonneg]
  have hf10 : ratio_fitnessModel 10 (3, 4) = 8 / 15 := by
    norm_num [ratio_fitnessModel, fittest_factorsModel, hdp10, pickPairGo, pairDist,
      min_def, max_def, abs_of_nonneg]
  have hf11 : ratio_fitnessModel 11 (3, 4) = 4 / 33 := by
    norm_num [ratio_fitnessModel, fittest_factorsModel, hdp11, pickPairGo, pairDist,
      min_def, max_def, abs_of_nonneg]
  have hf12 : ratio_fitnessModel 12 (3, 4) = 1 := by
    norm_num [ratio_fitnessModel, fittest_factorsModel, hdp12, pickPairGo, pairDist,
      min_def, max_def, abs_of_nonneg]
  have hsel : selGo (3, 4) 8 [9, 10, 11, 12] = 12 := by
    norm_num [selGo, hf8, hf9, hf10, hf11, hf12]
  show fittest_ofModel (List.range' 8 5) (3, 4) = .ok 12
  rw [show List.range' 8 5 = [8, 9, 10, 11, 12] from rfl]
  norm_num [fittest_ofModel, hsel]

/-! ## Concrete squareness values shared by the selector counterexamples -/

theorem squareness2_val :
    squareness 2 = .ok ((Real.sqrt 2 / 2 + 1 / Real.sqrt 2) / 2) := by
  rw [squareness_eq (by norm_num) sf2]
  norm_num

theorem squareness8_val :
    squareness 8 = .ok ((Real.sqrt 2 / 2 + 1 / Real.sqrt 2) / 2) := by
  rw [squareness_eq (by norm_num) sf8]
  have h8 : Real.sqrt 8 = 2 * Real.sqrt 2 := by
    rw [show (8 : ℝ) = 2 ^ 2 * 2 by norm_num, Real.sqrt_mul (by positivity),
      Real.sqrt_sq (by norm_num)]
  have h2 : Real.sqrt 2 * Real.sqrt 2 = 2 := Real.mul_self_sqrt (by norm_num)
  have h2pos : (0 : ℝ) < Real.sqrt 2 := Real.sqrt_pos.mpr (by norm_num)
  simp only [Except.ok.injEq]
  push_cast
  rw [h8]
  field_simp
  ring_nf
  nlinarith [h2, h2pos]

theorem squareness18_val :
    squareness 18 = .ok ((Real.sqrt 2 / 2 + 1 / Real.sqrt 2) / 2) := by
  rw [squareness_eq (by norm_num) sf18]
  have h18 : Real.sqrt 18 = 3 * Real.sqrt 2 := by
    rw [show (18 : ℝ) = 3 ^ 2 * 2 by norm_num, Real.sqrt_mul (by positivity),
      Real.sqrt_sq (by norm_num)]
  have h2 : Real.sqrt 2 * Real.sqrt 2 = 2 := Real.mul_self_sqrt (by norm_num)
  have h2pos : (0 : ℝ) < Real.sqrt 2 := Real.sqrt_pos.mpr (by norm_num)
  simp only [Except.ok.injEq]
  push_cast
  rw [h18]
  field_simp
  ring_nf
  nlinarith [h2, h2pos]

/-! ## The Python `max` fold on a sorted list selects the smallest argmax -/

theorem pyMaxGo_sorted (key : ℤ → Except String ℝ) :
    ∀ (l : List ℤ) (b : ℤ) (bs : ℝ), key b = .ok bs →
      (∀ y ∈ l, ∃ s : ℝ, key y = .ok s) →
      (∀ y ∈ l, b ≤ y) → List.Sorted (· ≤ ·) l →
      ∃ m : ℤ, ∃ sm : ℝ, pyMaxGo key b bs l = .ok m ∧ key m = .ok sm ∧
        bs ≤ sm ∧ (m = b ∨ m ∈ l) ∧
        (∀ y ∈ l, ∀ sy : ℝ, key y = .ok sy → sy ≤ sm) ∧
        (sm = bs → m = b) ∧
        (∀ y ∈ l, ∀ sy : ℝ, key y = .ok sy → sy = sm → m ≤ y) := by
  intro l
  induction l with
  | nil =>
    intro b bs hb _ _ _
    exact ⟨b, bs, rfl, hb, le_rfl, Or.inl rfl, by simp, fun _ => rfl, by simp⟩
  | cons x xs ih =>
    intro b bs hb hkeys hble hsort
    obtain ⟨sx, hsx⟩ := hkeys x (List.mem_cons_self x xs)
    have hxle : ∀ y ∈ xs, x ≤ y := (List.sorted_cons.mp hsort).1
    have hsort' : List.Sorted (· ≤ ·) xs := (List.sorted_cons.mp hsort).2
    have hkeys' : ∀ y ∈ xs, ∃ s : ℝ, key y = .ok s :=
      fun y hy => hkeys y (List.mem_cons_of_mem x hy)
    simp only [pyMaxGo, hsx]
    by_cases hlt : bs < sx
    · rw [if_pos hlt]
      obtain ⟨m, sm, h1, h2, h3, h4, h5, h6, h7⟩ := ih x sx hsx hkeys' hxle hsort'
      refine ⟨m, sm, h1, h2, le_trans hlt.le h3, ?_, ?_, ?_, ?_⟩
      · rcases h4 with h | h
        · exact Or.inr (h ▸ List.mem_cons_self x xs)
        · exact Or.inr (List.mem_cons_of_mem x h)
      · intro y hy sy hsy
        rcases List.mem_cons.mp hy with rfl | hy'
        · have hyx : sy = sx := Except.ok.inj (hsy.symm.trans hsx)
          rw [hyx]; exact h3
        · exact h5 y hy' sy hsy
      · intro hsmbs
        exact absurd (hsmbs ▸ h3) (not_le.mpr hlt)
      · intro y hy sy hsy hsm
        rcases List.mem_cons.mp hy with rfl | hy'
        · have hyx : sy = sx := Except.ok.inj (hsy.symm.trans hsx)
          exact le_of_eq (h6 (by rw [← hsm, hyx]))
        · exact h7 y hy' sy hsy hsm
    · rw [if_neg hlt]
      have hsxle : sx ≤ bs := not_lt.mp hlt
      obtain ⟨m, sm, h1, h2, h3, h4, h5, h6, h7⟩ := ih b bs hb hkeys'
        (fun y hy => hble y (List.mem_cons_of_mem x hy)) hsort'
      refine ⟨m, sm, h1, h2, h3, ?_, ?_, h6, ?_⟩
      · rcases h4 with h | h
        · exact Or.inl h
        · exact Or.inr (List.mem_cons_of_mem x h)
      · intro y hy sy hsy
        rcases List.mem_cons.mp hy with rfl | hy'
        · have hyx : sy = sx := Except.ok.inj (hsy.symm.trans hsx)
          rw [hyx]; exact le_trans hsxle h3
        · exact h5 y hy' sy hsy
      · intro y hy sy hsy hsm
        rcases List.mem_cons.mp hy with rfl | hy'
        · have hyx : sy = sx := Except.ok.inj (hsy.symm.trans hsx)
          have hsmbs : sm = bs := by
            apply le_antisymm ?_ h3
            rw [← hsm, hyx]
            exact hsxle
          exact (h6 hsmbs) ▸ hble y (List.mem_cons_self y xs)
        · exact h7 y hy' sy hsy hsm

theorem insertionSort_head_min {l : List ℤ} {s : ℤ} {t : List ℤ}
    (h : List.insertionSort (· ≤ ·) l = s :: t) : s ∈ l ∧ ∀ y ∈ l, s ≤ y := by
  have hperm := List.perm_insertionSort (· ≤ ·) l
  have hsorted := List.sorted_insertionSort (· ≤ ·) l
  rw [h] at hperm hsorted
  constructor
  · exact hperm.subset (List.mem_cons_self s t)
  · intro y hy
    have hy' : y ∈ s :: t := hperm.symm.subset hy
    rcases List.mem_cons.mp hy' with rfl | hy''
    · exact le_rfl
    · exact (List.sorted_cons.mp hsorted).1 y hy''

/-- Main correctness lemma for the fast-path selector: on a non-empty,
ascending-sorted collection of non-negative integers, `squarest_of` succeeds
and returns the numerically smallest candidate of maximal squareness. -/
theorem squarest_of_sorted (c : List ℤ) (hne : c ≠ [])
    (hnn : ∀ x ∈ c, 0 ≤ x) (hsort : List.Sorted (· ≤ ·) c) :
    ∃ m : ℤ, squarest_of c = .ok m ∧ IsSmallestArgmax c m := by
  cases hfil : List.insertionSort (· ≤ ·) (c.filter fun x => is_square x) with
  | cons s t =>
    obtain ⟨hs_mem, hs_min⟩ := insertionSort_head_min hfil
    have hsmem : s ∈ c := (List.mem_filter.mp hs_mem).1
    have hssq : is_square s = true := by
      simpa using (List.mem_filter.mp hs_mem).2
    refine ⟨s, ?_, ?_⟩
    · simp only [squarest_of, hfil]
    · refine ⟨hsmem, 1, squareness_of_square hssq, ?_, ?_⟩
      · intro y hy sy hsy
        obtain ⟨s', h', _, hle⟩ := squareness_ok (hnn y hy)
        have : sy = s' := Except.ok.inj (hsy.symm.trans h')
        rw [this]; exact hle
      · intro y hy sy hsy h1
        have hysq : is_square y = true := square_of_squareness_one (hnn y hy) hsy h1
        exact hs_min y (List.mem_filter.mpr ⟨hy, by simp [hysq]⟩)
  | nil =>
    cases c with
    | nil => exact absurd rfl hne
    | cons x xs =>
      obtain ⟨sx, hsx, _, _⟩ := squareness_ok (hnn x (List.mem_cons_self x xs))
      have hkeys : ∀ y ∈ xs, ∃ s : ℝ, squareness y = .ok s := fun y hy =>
        (squareness_ok (hnn y (List.mem_cons_of_mem x hy))).imp fun _ hs => hs.1
      obtain ⟨m, sm, h1, h2, h3, h4, h5, h6, h7⟩ :=
        pyMaxGo_sorted squareness xs x sx hsx hkeys
          (List.sorted_cons.mp hsort).1 (List.sorted_cons.mp hsort).2
      refine ⟨m, ?_, ?_, sm, h2, ?_, ?_⟩
      · simp only [squarest_of, hfil, pyMax, hsx]
        exact h1
      · rcases h4 with rfl | h
        · exact List.mem_cons_self m xs
        · exact List.mem_cons_of_mem x h
      · intro y hy sy hsy
        rcases List.mem_cons.mp hy with rfl | hy'
        · have hyx : sy = sx := Except.ok.inj (hsy.symm.trans hsx)
          rw [hyx]; exact h3
        · exact h5 y hy' sy hsy
      · intro y hy sy hsy hsm
        rcases List.mem_cons.mp hy with rfl | hy'
        · have hyx : sy = sx := Except.ok.inj (hsy.symm.trans hsx)
          exact le_of_eq (h6 (by rw [← hsm, hyx]))
        · exact h7 y hy' sy hsy hsm

/-! ## The spec-side full fitness scan also selects the smallest argmax -/

theorem keyed_ok : ∀ c : List ℤ, (∀ y ∈ c, ∃ s : ℝ, squareness y = .ok s) →
    ∃ ps : List (ℤ × ℝ), keyed c = .ok ps ∧
      (∀ p ∈ ps, p.1 ∈ c ∧ squareness p.1 = .ok p.2) ∧
      (∀ y ∈ c, ∀ sy : ℝ, squareness y = .ok sy → (y, sy) ∈ ps) := by
  intro c
  induction c with
  | nil => intro _; exact ⟨[], rfl, by simp, by simp⟩
  | cons x xs ih =>
    intro h
    obtain ⟨sx, hsx⟩ := h x (List.mem_cons_self x xs)
    obtain ⟨ps, hps, hP1, hP2⟩ := ih fun y hy => h y (List.mem_cons_of_mem x hy)
    refine ⟨(x, sx) :: ps, ?_, ?_, ?_⟩
    · simp only [keyed, hsx, hps]
    · intro p hp
      rcases List.mem_cons.mp hp with rfl | hp'
      · exact ⟨List.mem_cons_self x xs, hsx⟩
      · obtain ⟨hq1, hq2⟩ := hP1 p hp'
        exact ⟨List.mem_cons_of_mem x hq1, hq2⟩
    · intro y hy sy hsy
      rcases List.mem_cons.mp hy with rfl | hy'
      · have hyx : sy = sx := Except.ok.inj (hsy.symm.trans hsx)
        exact List.mem_cons.mpr (Or.inl (by rw [hyx]))
      · exact List.mem_cons_of_mem _ (hP2 y hy' sy hsy)

theorem bestGo_spec : ∀ (ps : List (ℤ × ℝ)) (b : ℤ) (bs : ℝ),
    ∃ sm : ℝ, ((bestGo b bs ps = b ∧ sm = bs) ∨ (bestGo b bs ps, sm) ∈ ps) ∧
      bs ≤ sm ∧ (∀ p ∈ ps, p.2 ≤ sm) ∧
      (∀ p ∈ ps, p.2 = sm → bestGo b bs ps ≤ p.1) ∧
      (sm = bs → bestGo b bs ps ≤ b) := by
  intro ps
  induction ps with
  | nil =>
    intro b bs
    exact ⟨bs, Or.inl ⟨rfl, rfl⟩, le_rfl, by simp, by simp, fun _ => le_rfl⟩
  | cons p ps ih =>
    intro b bs
    obtain ⟨x, s⟩ := p
    simp only [bestGo]
    by_cases hc : bs < s ∨ (s = bs ∧ x < b)
    · rw [if_pos hc]
      obtain ⟨sm, hmem, hle, hmax, htie, hb⟩ := ih x s
      have hbs_le_s : bs ≤ s := by
        rcases hc with h | h
        · exact h.le
        · exact le_of_eq h.1.symm
      refine ⟨sm, ?_, le_trans hbs_le_s hle, ?_, ?_, ?_⟩
      · rcases hmem with ⟨h1, h2⟩ | h
        · exact Or.inr (List.mem_cons.mpr (Or.inl (by rw [h1, h2])))
        · exact Or.inr (List.mem_cons_of_mem _ h)
      · intro q hq
        rcases List.mem_cons.mp hq with rfl | hq'
        · exact hle
        · exact hmax q hq'
      · intro q hq hq2
        rcases List.mem_cons.mp hq with rfl | hq'
        · exact hb hq2.symm
        · exact htie q hq' hq2
      · intro hsmbs
        rcases hc with h | h
        · exact absurd (hsmbs ▸ hle) (not_le.mpr h)
        · have h1 : bestGo x s ps ≤ x := hb (by rw [hsmbs, ← h.1])
          exact le_trans h1 h.2.le
    · rw [if_neg hc]
      push_neg at hc
      obtain ⟨hc1, hc2⟩ := hc
      have hsle : s ≤ bs := hc1
      obtain ⟨sm, hmem, hle, hmax, htie, hb⟩ := ih b bs
      refine ⟨sm, ?_, hle, ?_, ?_, hb⟩
      · rcases hmem with h | h
        · exact Or.inl h
        · exact Or.inr (List.mem_cons_of_mem _ h)
      · intro q hq
        rcases List.mem_cons.mp hq with rfl | hq'
        · exact le_trans hsle hle
        · exact hmax q hq'
      · intro q hq hq2
        rcases List.mem_cons.mp hq with rfl | hq'
        · have hsm2 : s = sm := hq2
          have hsmbs : sm = bs := le_antisymm (hsm2 ▸ hsle) hle
          have h1 : bestGo b bs ps ≤ b := hb hsmbs
          have h2 : b ≤ x := hc2 (by rw [hsm2, hsmbs])
          exact le_trans h1 h2
        · exact htie q hq' hq2

/-- The spec-side full fitness scan succeeds on every non-empty collection of
non-negative integers and returns the numerically smallest candidate of
maximal squareness. -/
theorem fullScanSmallest_spec (c : List ℤ) (hne : c ≠ [])
    (hnn : ∀ x ∈ c, 0 ≤ x) :
    ∃ m : ℤ, fullScanSmallest c = .ok m ∧ IsSmallestArgmax c m := by
  cases c with
  | nil => exact absurd rfl hne
  | cons x xs =>
    obtain ⟨sx, hsx, _, _⟩ := squareness_ok (hnn x (List.mem_cons_self x xs))
    obtain ⟨ps, hps, hP1, hP2⟩ := keyed_ok xs fun y hy =>
      (squareness_ok (hnn y (List.mem_cons_of_mem x hy))).imp fun _ hs => hs.1
    have hkc : keyed (x :: xs) = .ok ((x, sx) :: ps) := by
      simp only [keyed, hsx, hps]
    obtain ⟨sm, hmem, hle, hmax, htie, hb⟩ := bestGo_spec ps x sx
    refine ⟨bestGo x sx ps, ?_, ?_, sm, ?_, ?_, ?_⟩
    · simp only [fullScanSmallest, hkc]
    · rcases hmem with ⟨h1, _⟩ | h
      · rw [h1]; exact List.mem_cons_self x xs
      · exact List.mem_cons_of_mem x (hP1 _ h).1
    · rcases hmem with ⟨h1, h2⟩ | h
      · rw [h1, h2]; exact hsx
      · exact (hP1 _ h).2
    · intro y hy sy hsy
      rcases List.mem_cons.mp hy with rfl | hy'
      · have hyx : sy = sx := Except.ok.inj (hsy.symm.trans hsx)
        rw [hyx]; exact hle
      · exact hmax (y, sy) (hP2 y hy' sy hsy)
    · intro y hy sy hsy h1
      rcases List.mem_cons.mp hy with rfl | hy'
      · have hyx : sy = sx := Except.ok.inj (hsy.symm.trans hsx)
        exact hb (by rw [← h1, hyx])
      · exact htie (y, sy) (hP2 y hy' sy hsy) h1

theorem isSmallestArgmax_unique {c : List ℤ} {m1 m2 : ℤ}
    (h1 : IsSmallestArgmax c m1) (h2 : IsSmallestArgmax c m2) : m1 = m2 := by
  obtain ⟨hm1, s1, hs1, hmax1, htie1⟩ := h1
  obtain ⟨hm2, s2, hs2, hmax2, htie2⟩ := h2
  have hs : s1 = s2 := le_antisymm (hmax2 m1 hm1 s1 hs1) (hmax1 m2 hm2 s2 hs2)
  exact le_antisymm (htie1 m2 hm2 s2 hs2 hs.symm) (htie2 m1 hm1 s1 hs1 hs)

/-! ## Claims C4 and C7 -/

/-- C4 counterexample: on the non-negative collection `[18, 2]` the fast-path
selector returns `18` (no perfect squares, and Python `max` keeps the first
element on a tie, `squareness 18 = squareness 2`), while the unshortcut full
fitness scan with the smallest-value tie-break returns `2`; the two paths are
not equivalent on every collection. -/
theorem claim_C4_counterexample :
    squarest_of [18, 2] = .ok 18 ∧ fullScanSmallest [18, 2] = .ok 2 ∧
      (18 : ℤ) ≠ 2 := by
  refine ⟨?_, ?_, by norm_num⟩
  · have hfil : List.filter (fun x => is_square x) ([18, 2] : List ℤ) = [] := by
      simp [List.filter, isq18, isq2]
    have hins : List.insertionSort (· ≤ ·) ([] : List ℤ) = [] := rfl
    simp only [squarest_of, hfil, hins, pyMax, squareness18_val, pyMaxGo,
      squareness2_val]
    rw [if_neg (lt_irrefl _)]
  · have hk : keyed [18, 2] =
        .ok [(18, (Real.sqrt 2 / 2 + 1 / Real.sqrt 2) / 2),
             (2, (Real.sqrt 2 / 2 + 1 / Real.sqrt 2) / 2)] := by
      simp only [keyed, squareness18_val, squareness2_val]
    simp only [fullScanSmallest, hk, bestGo]
    rw [if_pos (Or.inr ⟨trivial, by norm_num⟩)]

/-- C4 (amended): for every non-empty, ascending-sorted collection of
non-negative integers, the fast-path selector `squarest_of` and the
unshortcut full fitness scan with the same (smallest-value) tie-break return
the same value.  (Sortedness is what the original claim lacked: on unsorted
collections Python `max` keeps the first of several tied candidates, per the
counterexample.) -/
theorem claim_C4 (c : List ℤ) (hne : c ≠ []) (hnn : ∀ x ∈ c, 0 ≤ x)
    (hsort : List.Sorted (· ≤ ·) c) : squarest_of c = fullScanSmallest c := by
  obtain ⟨m1, he1, ha1⟩ := squarest_of_sorted c hne hnn hsort
  obtain ⟨m2, he2, ha2⟩ := fullScanSmallest_spec c hne hnn
  rw [he1, he2, isSmallestArgmax_unique ha1 ha2]

/-- Witness for C4 at the concrete sorted collection `[2, 3]`. -/
theorem claim_C4_witness :
    (([2, 3] : List ℤ) ≠ [] ∧ (∀ x ∈ ([2, 3] : List ℤ), 0 ≤ x) ∧
        List.Sorted (· ≤ ·) ([2, 3] : List ℤ)) ∧
      squarest_of [2, 3] = fullScanSmallest [2, 3] :=
  ⟨⟨by simp, by decide, by decide⟩,
    claim_C4 [2, 3] (by simp) (by decide) (by decide)⟩

/-- C7 counterexample: on the non-empty collection `[8, 2]` the selector
returns `8`, which is not the numerically smallest candidate of maximal
fitness: `2` ties with `8` (`squareness 8 = squareness 2 = 1/√2`) and `2 < 8`,
refuting the claim for arbitrary collections. -/
theorem claim_C7_counterexample :
    squarest_of [8, 2] = .ok 8 ∧ ¬IsSmallestArgmax [8, 2] 8 := by
  constructor
  · have hfil : List.filter (fun x => is_square x) ([8, 2] : List ℤ) = [] := by
      simp [List.filter, isq8, isq2]
    have hins : List.insertionSort (· ≤ ·) ([] : List ℤ) = [] := rfl
    simp only [squarest_of, hfil, hins, pyMax, squareness8_val, pyMaxGo,
      squareness2_val]
    rw [if_neg (lt_irrefl _)]
  · rintro ⟨_, sm, hsm, _, htie⟩
    have hsm' : sm = (Real.sqrt 2 / 2 + 1 / Real.sqrt 2) / 2 :=
      Except.ok.inj (hsm.symm.trans squareness8_val)
    have h82 : (8 : ℤ) ≤ 2 :=
      htie 2 (by simp) _ squareness2_val (by rw [hsm'])
    omega

/-- C7 (amended): for every non-empty, ascending-sorted collection of
non-negative integers, `squarest_of` with no tie-break key and
`pick_highest_tie` false returns the numerically smallest of the candidates
achieving the maximal fitness score.  (For unsorted collections without
perfect squares the fallback `max` keeps the first tied candidate instead,
per the counterexample.) -/
theorem claim_C7 (c : List ℤ) (hne : c ≠ []) (hnn : ∀ x ∈ c, 0 ≤ x)
    (hsort : List.Sorted (· ≤ ·) c) :
    ∃ m : ℤ, squarest_of c = .ok m ∧ IsSmallestArgmax c m :=
  squarest_of_sorted c hne hnn hsort

/-- Witness for C7 at the concrete sorted collection `[2, 3, 4]`. -/
theorem claim_C7_witness :
    (([2, 3, 4] : List ℤ) ≠ [] ∧ (∀ x ∈ ([2, 3, 4] : List ℤ), 0 ≤ x) ∧
        List.Sorted (· ≤ ·) ([2, 3, 4] : List ℤ)) ∧
      ∃ m : ℤ, squarest_of [2, 3, 4] = .ok m ∧ IsSmallestArgmax [2, 3, 4] m :=
  ⟨⟨by simp, by decide, by decide⟩,
    claim_C7 [2, 3, 4] (by simp) (by decide) (by decide)⟩

end Squarish

